import Mathlib

/-!
# chancaster: a keyed channel broker

A shallow embedding of `chancaster.go`.  The broker is a Go struct with three
fields (`eg`, `ctx`, `chans`).  Its methods allocate, send on and close Go
channels, so the state below also carries the part of the Go heap that holds
the channels created by the broker.

* A Go `error` value is modelled by its message; `nil` is `Option.none`.
* A channel is a reference: it is modelled by an identifier into the heap, and
  the nil channel is `Option.none`.
* A run-time panic (`close` of a closed channel, send on a closed channel) is
  the `Except.error` outcome of an operation.
* An unbuffered send blocks until a receiver takes the value.  The embedding
  records the completed hand-off in the log of the channel; it does not model
  the waiting.
* `eg.Go(fn)` starts `fn` in a goroutine of its own.  `Add` returns without
  waiting for it, so the return of `fn` is a separate entry of a history
  (`Env.taskDone`): a non-nil return cancels the scope, and every later call
  sees the canceled scope.
-/

namespace Chancaster

/-- A non-nil Go `error`, identified by its message. -/
abbrev Error := String

/-- Source: `const ChanNotFound = "no channel found for key"`. -/
def ChanNotFound : String := "no channel found for key"

/-- Source: `type ChanFunc func() error`. -/
abbrev ChanFunc := Unit → Option Error

/-- State of a `context.Context`: either live, or done with the value of
`Err()` and the cancellation cause (both non-nil once the context is done). -/
inductive Context where
  | live
  | canceled (err cause : Error)
  deriving DecidableEq, Repr

/-- Library accessor `ctx.Err()`: nil while the context is live. -/
def Context.Err : Context → Option Error
  | .live => none
  | .canceled err _ => some err

/-- Library accessor `context.Cause(ctx)`: nil while the context is live. -/
def Cause : Context → Option Error
  | .live => none
  | .canceled _ cause => some cause

/-- Identifier of a channel in the heap. -/
abbrev ChanId := Nat

/-- Run-time state of one Go `chan T`: whether `close` was executed on it and
the values handed off through it so far, oldest first. -/
structure Chan (T : Type) where
  closed : Bool
  sent : List T
  deriving DecidableEq, Repr

/-- Source: `type ChanCaster[K comparable, T any] struct { eg; ctx; chans }`.
`eg` is the list of functions handed to `eg.Go`, in call order; `chans` is the
Go map (no entry is `none`); `heap` and `next` are the channels allocated by
`make(chan T)` and the next free identifier. -/
structure ChanCaster (K T : Type) where
  eg : List ChanFunc
  ctx : Context
  chans : K → Option ChanId
  heap : ChanId → Chan T
  next : ChanId

set_option linter.unusedSectionVars false

variable {K T : Type} [DecidableEq K]

/-- Source: `New`.  `errgroup.WithContext(ctx)` derives the scope from the
parent context: the scope is done exactly when the parent is, with the parent's
error and cause.  The group and the map start empty. -/
def New (ctx : Context) : ChanCaster K T :=
  { eg := [], ctx := ctx, chans := fun _ => none, heap := fun _ => ⟨false, []⟩, next := 0 }

/-- Source: `ChanCaster.Add`.  `c.eg.Go(fn)` starts `fn` in a new goroutine and
returns at once: the call itself records `fn` in the group and leaves the scope
as it is.  What the return of `fn` does to the scope is `settle`. -/
def Add (c : ChanCaster K T) (key : K) (fn : ChanFunc) : ChanCaster K T × Option Error :=
  if c.ctx.Err ≠ none then
    (c, Cause c.ctx)
  else
    ({ eg := c.eg ++ [fn],
       ctx := c.ctx,
       chans := Function.update c.chans key (some c.next),
       heap := Function.update c.heap c.next ⟨false, []⟩,
       next := c.next + 1 }, none)

/-- Source: `ChanCaster.Get`.  Returns the broker, the channel and the error. -/
def Get (c : ChanCaster K T) (key : K) : ChanCaster K T × Option ChanId × Option Error :=
  if c.ctx.Err ≠ none then
    (c, none, Cause c.ctx)
  else
    (c, c.chans key, none)

/-- Source: `ChanCaster.Publish`.  A send on a closed channel panics. -/
def Publish (c : ChanCaster K T) (key : K) (data : T) :
    Except String (ChanCaster K T × Option Error) :=
  match c.chans key with
  | none => .ok (c, some ChanNotFound)
  | some ch =>
    if (c.heap ch).closed then
      .error "send on closed channel"
    else
      .ok ({ eg := c.eg,
             ctx := c.ctx,
             chans := c.chans,
             heap := Function.update c.heap ch ⟨(c.heap ch).closed, (c.heap ch).sent ++ [data]⟩,
             next := c.next }, none)

/-- Source: `ChanCaster.Close`.  `close` of a closed channel panics. -/
def Close (c : ChanCaster K T) (key : K) : Except String (ChanCaster K T × Option Error) :=
  match c.chans key with
  | none => .ok (c, some ChanNotFound)
  | some ch =>
    if (c.heap ch).closed then
      .error "close of closed channel"
    else
      .ok ({ eg := c.eg,
             ctx := c.ctx,
             chans := Function.update c.chans key none,
             heap := Function.update c.heap ch ⟨true, (c.heap ch).sent⟩,
             next := c.next }, none)


/-- One call of a broker method, by the driver or by a task. -/
inductive Call (K T : Type) where
  | add (key : K) (fn : ChanFunc)
  | get (key : K)
  | publish (key : K) (data : T)
  | close (key : K)

/-- Execute one call; the result is the new broker and the returned error. -/
def invoke (c : ChanCaster K T) : Call K T → Except String (ChanCaster K T × Option Error)
  | .add key fn => .ok (Add c key fn)
  | .get key => .ok ((Get c key).1, (Get c key).2.2)
  | .publish key data => Publish c key data
  | .close key => Close c key

/-- Library behaviour of the cancel function of the scope: a live scope becomes
done with the given error and cause; a scope that is already done keeps the
error and cause it has. -/
def cancelScope (c : ChanCaster K T) (err cause : Error) : ChanCaster K T :=
  match c.ctx with
  | .live => { eg := c.eg, ctx := .canceled err cause, chans := c.chans, heap := c.heap,
               next := c.next }
  | .canceled _ _ => c

/-- What happens to the broker between two calls, outside the code of its
methods: the goroutine that `eg.Go` started for the `i`-th registered function
returns, or the scope is canceled from outside (the parent context is done, or
`Wait` returns). -/
inductive Env where
  | taskDone (i : Nat)
  | scopeDone (err cause : Error)
  deriving DecidableEq, Repr

/-- Library behaviour of `errgroup.Group.Go` (source: `c.eg.Go(fn)` in `Add`,
and the doc comment of `New`): when a registered function returns a non-nil
error the group cancels the scope with that error as the cause; `Err()` is then
"context canceled".  A nil return changes nothing. -/
def settle (c : ChanCaster K T) : Env → ChanCaster K T
  | .taskDone i =>
    match c.eg[i]? with
    | none => c
    | some fn =>
      match fn () with
      | none => c
      | some err => cancelScope c "context canceled" err
  | .scopeDone err cause => cancelScope c err cause

/-- Apply a sequence of outside happenings, oldest first. -/
def settleAll (c : ChanCaster K T) : List Env → ChanCaster K T
  | [] => c
  | ev :: rest => settleAll (settle c ev) rest

/-- One entry of a history of the broker: a call of one of its methods, or
something that happens to it between calls. -/
inductive Event (K T : Type) where
  | call (op : Call K T)
  | env (ev : Env)

/-- Execute one entry of a history; an outside happening returns no error. -/
def step (c : ChanCaster K T) : Event K T → Except String (ChanCaster K T × Option Error)
  | .call op => invoke c op
  | .env ev => .ok (settle c ev, none)

/-- Execute a history, oldest entry first; the result is the final broker and
the error returned at each entry.  A panic aborts the history. -/
def run (c : ChanCaster K T) :
    List (Event K T) → Except String (ChanCaster K T × List (Option Error))
  | [] => .ok (c, [])
  | ev :: rest =>
    match step c ev with
    | .error p => .error p
    | .ok (c1, e) =>
      match run c1 rest with
      | .error p => .error p
      | .ok (c2, es) => .ok (c2, e :: es)

/-- A broker state produced by `New` followed by calls of its methods, with
task returns and cancellations of the scope anywhere in between. -/
def Reachable (c : ChanCaster K T) : Prop :=
  ∃ (ctx : Context) (hist : List (Event K T)) (es : List (Option Error)),
    run (New ctx) hist = .ok (c, es)

/-- Heap discipline of the map: every stored channel was allocated, is open,
and is stored under one key only. -/
structure WF (c : ChanCaster K T) : Prop where
  alloc : ∀ k id, c.chans k = some id → id < c.next
  isOpen : ∀ k id, c.chans k = some id → (c.heap id).closed = false
  inj : ∀ k₁ k₂ id, c.chans k₁ = some id → c.chans k₂ = some id → k₁ = k₂

/-- What an entry means for the registration of `key` according to the calls
alone: `Add(key, _)` registers (`some true`), `Close(key)` unregisters
(`some false`), every other entry is neutral (`none`). -/
def callEvent (key : K) : Event K T → Option Bool
  | .call (.add k _) => if k = key then some true else none
  | .call (.close k) => if k = key then some false else none
  | _ => none

/-- What an entry and the error it returned mean for the registration of `key`:
an `Add(key, _)` that returned nil registers, a `Close(key)` unregisters, every
other entry (a failed `Add` among them) is neutral. -/
def logEvent (key : K) : Event K T × Option Error → Option Bool
  | (.call (.add k _), e) => if k = key ∧ e = none then some true else none
  | (.call (.close k), _) => if k = key then some false else none
  | _ => none

/-- Replay a history: the answer of the last event that is not neutral, or
`init` when there is none. -/
def lastEvent {α : Type} (ev : α → Option Bool) (init : Bool) : List α → Bool
  | [] => init
  | x :: rest => lastEvent ev ((ev x).getD init) rest

/-- Some entry of the history registers and every later entry is neutral: the
most recent registration has not been undone. -/
def RegisteredBy {α : Type} (ev : α → Option Bool) (l : List α) : Prop :=
  ∃ pre x post, l = pre ++ x :: post ∧ ev x = some true ∧ ∀ y ∈ post, ev y = none

/-- The entries of a history that are calls `Add(key, _)`. -/
def addsKey (key : K) : Event K T → Bool
  | .call (.add k _) => decide (k = key)
  | _ => false

/-- The entries of a history that are calls of `Add`, with any key. -/
def isAdd : Event K T → Bool
  | .call (.add _ _) => true
  | _ => false

/-- The entries of a history that are calls of `Get`, `Publish` or `Close`. -/
def isOtherCall : Event K T → Bool
  | .call (.add _ _) => false
  | .call _ => true
  | .env _ => false

/-! ## Concrete brokers and histories used to instantiate the results -/

/-- A task that returns nil at once. -/
def idleTask : ChanFunc := fun _ => none

/-- A task that returns the error "boom". -/
def failingTask : ChanFunc := fun _ => some "boom"

/-- A broker with a live scope and one registered key. -/
def oneKey : ChanCaster String Nat := (Add (New .live) "AAPL" idleTask).1

/-- A broker with one registered key whose scope was canceled afterwards. -/
def oneKeyDone : ChanCaster String Nat :=
  { eg := oneKey.eg, ctx := .canceled "context canceled" "task failed",
    chans := oneKey.chans, heap := oneKey.heap, next := oneKey.next }

/-- A broker with one registered key whose task has returned "boom". -/
def taskFailed : ChanCaster String Nat :=
  settle (Add (New .live) "AAPL" failingTask).1 (.taskDone 0)

/-- A history in which the task of the first `Add` fails before two further
`Add` calls and a `Close` of a key that was never added. -/
def mixedHistory : List (Event String Nat) :=
  [.call (.add "AAPL" failingTask), .env (.taskDone 0), .call (.add "AAPL" idleTask),
   .call (.add "MSFT" idleTask), .call (.close "GOOG")]

/-- A history in which the only task to return returns nil, so that the scope
stays live. -/
def calmHistory : List (Event String Nat) :=
  [.call (.add "AAPL" idleTask), .env (.taskDone 0), .call (.close "AAPL"),
   .call (.add "MSFT" idleTask)]

/-- A history that registers two keys and then has the first task fail. -/
def twoKeysHistory : List (Event String Nat) :=
  [.call (.add "AAPL" failingTask), .call (.add "MSFT" idleTask), .env (.taskDone 0)]

/-- The broker at the end of `twoKeysHistory`. -/
def twoKeysDone : ChanCaster String Nat :=
  settle (Add (Add (New .live) "AAPL" failingTask).1 "MSFT" idleTask).1 (.taskDone 0)

/-! ## Effect of each operation -/

theorem New_wf (ctx : Context) : WF (New ctx : ChanCaster K T) := by
  refine ⟨?_, ?_, ?_⟩ <;> intros <;> simp_all [New]

theorem Add_of_live (c : ChanCaster K T) (key : K) (fn : ChanFunc) (h : c.ctx.Err = none) :
    Add c key fn =
      ({ eg := c.eg ++ [fn],
         ctx := c.ctx,
         chans := Function.update c.chans key (some c.next),
         heap := Function.update c.heap c.next ⟨false, []⟩,
         next := c.next + 1 }, none) := by
  simp [Add, h]

theorem Add_of_done (c : ChanCaster K T) (key : K) (fn : ChanFunc) (err cause : Error)
    (h : c.ctx = .canceled err cause) : Add c key fn = (c, some cause) := by
  simp [Add, h, Context.Err, Cause]

theorem Add_ctx (c : ChanCaster K T) (key : K) (fn : ChanFunc) : (Add c key fn).1.ctx = c.ctx := by
  unfold Add
  split <;> rfl

theorem Add_wf (c : ChanCaster K T) (key : K) (fn : ChanFunc) (h : WF c) : WF (Add c key fn).1 := by
  cases hc : c.ctx.Err with
  | some e => simpa [Add, hc] using h
  | none =>
    rw [Add_of_live c key fn hc]
    refine ⟨?_, ?_, ?_⟩
    · intro k id hk
      by_cases e : k = key
      · subst e
        simp at hk
        subst hk
        exact Nat.lt_succ_self _
      · simp [Function.update_noteq e] at hk
        exact Nat.lt_succ_of_lt (h.alloc k id hk)
    · intro k id hk
      by_cases e : k = key
      · subst e
        simp at hk
        subst hk
        simp
      · simp [Function.update_noteq e] at hk
        have hlt := h.alloc k id hk
        have hne : id ≠ c.next := Nat.ne_of_lt hlt
        simpa [Function.update_noteq hne] using h.isOpen k id hk
    · intro k₁ k₂ id h₁ h₂
      by_cases e₁ : k₁ = key <;> by_cases e₂ : k₂ = key
      · rw [e₁, e₂]
      · subst e₁
        simp at h₁
        subst h₁
        simp [Function.update_noteq e₂] at h₂
        exact absurd (h.alloc k₂ _ h₂) (Nat.lt_irrefl _)
      · subst e₂
        simp at h₂
        subst h₂
        simp [Function.update_noteq e₁] at h₁
        exact absurd (h.alloc k₁ _ h₁) (Nat.lt_irrefl _)
      · simp [Function.update_noteq e₁] at h₁
        simp [Function.update_noteq e₂] at h₂
        exact h.inj k₁ k₂ id h₁ h₂

theorem Get_broker (c : ChanCaster K T) (key : K) : (Get c key).1 = c := by
  unfold Get
  split <;> rfl

theorem Publish_of_absent (c : ChanCaster K T) (key : K) (data : T) (h : c.chans key = none) :
    Publish c key data = .ok (c, some ChanNotFound) := by
  simp [Publish, h]

theorem Close_of_absent (c : ChanCaster K T) (key : K) (h : c.chans key = none) :
    Close c key = .ok (c, some ChanNotFound) := by
  simp [Close, h]

theorem Publish_of_open (c : ChanCaster K T) (key : K) (data : T) (ch : ChanId)
    (h : c.chans key = some ch) (ho : (c.heap ch).closed = false) :
    Publish c key data =
      .ok ({ eg := c.eg,
             ctx := c.ctx,
             chans := c.chans,
             heap := Function.update c.heap ch ⟨(c.heap ch).closed, (c.heap ch).sent ++ [data]⟩,
             next := c.next }, none) := by
  simp [Publish, h, ho]

theorem Close_of_open (c : ChanCaster K T) (key : K) (ch : ChanId)
    (h : c.chans key = some ch) (ho : (c.heap ch).closed = false) :
    Close c key =
      .ok ({ eg := c.eg,
             ctx := c.ctx,
             chans := Function.update c.chans key none,
             heap := Function.update c.heap ch ⟨true, (c.heap ch).sent⟩,
             next := c.next }, none) := by
  simp [Close, h, ho]

/-- On a well-formed broker `Publish` returns, keeps the map and the scope, and
keeps the broker well formed. -/
theorem Publish_wf (c : ChanCaster K T) (key : K) (data : T) (h : WF c) :
    ∃ c1 e, Publish c key data = .ok (c1, e) ∧ WF c1 ∧ c1.ctx = c.ctx ∧ c1.chans = c.chans := by
  cases hk : c.chans key with
  | none => exact ⟨c, _, Publish_of_absent c key data hk, h, rfl, rfl⟩
  | some ch =>
    have ho := h.isOpen key ch hk
    refine ⟨_, _, Publish_of_open c key data ch hk ho, ⟨?_, ?_, ?_⟩, rfl, rfl⟩
    · exact h.alloc
    · intro k id hid
      have := h.isOpen k id hid
      by_cases e : id = ch
      · subst e
        simpa using this
      · simpa [Function.update_noteq e] using this
    · exact h.inj

/-- On a well-formed broker `Close` returns, keeps the scope, removes at most
the entry of its key, and keeps the broker well formed. -/
theorem Close_wf (c : ChanCaster K T) (key : K) (h : WF c) :
    ∃ c1 e, Close c key = .ok (c1, e) ∧ WF c1 ∧ c1.ctx = c.ctx ∧
      c1.chans = Function.update c.chans key none := by
  cases hk : c.chans key with
  | none =>
    refine ⟨c, _, Close_of_absent c key hk, h, rfl, ?_⟩
    funext k
    by_cases e : k = key
    · subst e
      simp [hk]
    · simp [Function.update_noteq e]
  | some ch =>
    have ho := h.isOpen key ch hk
    refine ⟨_, _, Close_of_open c key ch hk ho, ⟨?_, ?_, ?_⟩, rfl, rfl⟩
    · intro k id hid
      by_cases e : k = key
      · subst e
        simp at hid
      · simp [Function.update_noteq e] at hid
        exact h.alloc k id hid
    · intro k id hid
      by_cases e : k = key
      · subst e
        simp at hid
      · simp [Function.update_noteq e] at hid
        have hne : id ≠ ch := by
          intro hh
          subst hh
          exact e (h.inj k key id hid hk)
        simpa [Function.update_noteq hne] using h.isOpen k id hid
    · intro k₁ k₂ id h₁ h₂
      by_cases e₁ : k₁ = key
      · subst e₁
        simp at h₁
      · by_cases e₂ : k₂ = key
        · subst e₂
          simp at h₂
        · simp [Function.update_noteq e₁] at h₁
          simp [Function.update_noteq e₂] at h₂
          exact h.inj k₁ k₂ id h₁ h₂

theorem Publish_chans (c c1 : ChanCaster K T) (key : K) (data : T) (e : Option Error)
    (h : Publish c key data = .ok (c1, e)) : c1.chans = c.chans ∧ c1.ctx = c.ctx := by
  unfold Publish at h
  split at h
  · cases h
    exact ⟨rfl, rfl⟩
  · split at h
    · cases h
    · cases h
      exact ⟨rfl, rfl⟩

theorem Close_chans (c c1 : ChanCaster K T) (key : K) (e : Option Error)
    (h : Close c key = .ok (c1, e)) :
    c1.chans = Function.update c.chans key none ∧ c1.ctx = c.ctx := by
  unfold Close at h
  split at h
  · rename_i hk
    cases h
    refine ⟨?_, rfl⟩
    funext k
    by_cases e : k = key
    · subst e
      simp [hk]
    · simp [Function.update_noteq e]
  · split at h
    · cases h
    · cases h
      exact ⟨rfl, rfl⟩


/-! ## Outside happenings -/

theorem cancelScope_of_done (c : ChanCaster K T) (err cause e k : Error)
    (h : c.ctx = .canceled e k) : cancelScope c err cause = c := by
  simp [cancelScope, h]

theorem cancelScope_frame (c : ChanCaster K T) (err cause : Error) :
    (cancelScope c err cause).chans = c.chans ∧ (cancelScope c err cause).heap = c.heap ∧
    (cancelScope c err cause).next = c.next ∧ (cancelScope c err cause).eg = c.eg := by
  unfold cancelScope
  split <;> exact ⟨rfl, rfl, rfl, rfl⟩

theorem settle_of_done (c : ChanCaster K T) (ev : Env) (e k : Error)
    (h : c.ctx = .canceled e k) : settle c ev = c := by
  cases ev with
  | taskDone i =>
    simp only [settle]
    split
    · rfl
    · split
      · rfl
      · exact cancelScope_of_done c _ _ e k h
  | scopeDone err cause => exact cancelScope_of_done c err cause e k h

theorem settle_frame (c : ChanCaster K T) (ev : Env) :
    (settle c ev).chans = c.chans ∧ (settle c ev).heap = c.heap ∧
    (settle c ev).next = c.next ∧ (settle c ev).eg = c.eg := by
  cases ev with
  | taskDone i =>
    simp only [settle]
    split
    · exact ⟨rfl, rfl, rfl, rfl⟩
    · split
      · exact ⟨rfl, rfl, rfl, rfl⟩
      · exact cancelScope_frame c _ _
  | scopeDone err cause => exact cancelScope_frame c err cause

theorem settle_wf (c : ChanCaster K T) (ev : Env) (h : WF c) : WF (settle c ev) := by
  obtain ⟨h1, h2, h3, _⟩ := settle_frame c ev
  refine ⟨?_, ?_, ?_⟩
  · intro k id hk
    rw [h1] at hk
    rw [h3]
    exact h.alloc k id hk
  · intro k id hk
    rw [h1] at hk
    rw [h2]
    exact h.isOpen k id hk
  · intro k₁ k₂ id hk₁ hk₂
    rw [h1] at hk₁ hk₂
    exact h.inj k₁ k₂ id hk₁ hk₂

theorem settleAll_frame (envs : List Env) :
    ∀ c : ChanCaster K T, (settleAll c envs).chans = c.chans ∧ (settleAll c envs).heap = c.heap := by
  induction envs with
  | nil => exact fun c => ⟨rfl, rfl⟩
  | cons ev rest ih =>
    intro c
    obtain ⟨h1, h2⟩ := ih (settle c ev)
    obtain ⟨h3, h4, _⟩ := settle_frame c ev
    exact ⟨h1.trans h3, h2.trans h4⟩

/-! ## Histories -/

theorem run_cons_ok (c c1 c2 : ChanCaster K T) (ev : Event K T) (rest : List (Event K T))
    (e : Option Error) (es : List (Option Error))
    (h1 : step c ev = .ok (c1, e)) (h2 : run c1 rest = .ok (c2, es)) :
    run c (ev :: rest) = .ok (c2, e :: es) := by
  simp [run, h1, h2]

theorem run_cons_inv (c c2 : ChanCaster K T) (ev : Event K T) (rest : List (Event K T))
    (es' : List (Option Error)) (h : run c (ev :: rest) = .ok (c2, es')) :
    ∃ c1 e es, step c ev = .ok (c1, e) ∧ run c1 rest = .ok (c2, es) ∧ es' = e :: es := by
  unfold run at h
  split at h
  · cases h
  · rename_i c1 e h1
    split at h
    · cases h
    · rename_i c3 es h2
      cases h
      exact ⟨c1, e, es, h1, h2, rfl⟩

/-- No method of the broker changes the scope. -/
theorem invoke_ctx (c c1 : ChanCaster K T) (op : Call K T) (e : Option Error)
    (h : invoke c op = .ok (c1, e)) : c1.ctx = c.ctx := by
  cases op with
  | add k fn =>
    simp only [invoke, Except.ok.injEq] at h
    have := Add_ctx c k fn
    rw [h] at this
    exact this
  | get k =>
    simp only [invoke, Except.ok.injEq] at h
    rw [Get_broker] at h
    cases h
    rfl
  | publish k data => exact (Publish_chans c c1 k data e h).2
  | close k => exact (Close_chans c c1 k e h).2

/-- A scope that is live after an entry was live before it. -/
theorem step_live_back (c c1 : ChanCaster K T) (ev : Event K T) (e : Option Error)
    (h : step c ev = .ok (c1, e)) (hl : c1.ctx = .live) : c.ctx = .live := by
  cases ev with
  | call op => exact (invoke_ctx c c1 op e h).symm.trans hl
  | env en =>
    simp only [step, Except.ok.injEq, Prod.mk.injEq] at h
    cases hc : c.ctx with
    | live => rfl
    | canceled e1 k1 =>
      rw [settle_of_done c en e1 k1 hc] at h
      rw [← h.1, hc] at hl
      cases hl

theorem run_live_back (hist : List (Event K T)) :
    ∀ (c c1 : ChanCaster K T) (es : List (Option Error)),
      run c hist = .ok (c1, es) → c1.ctx = .live → c.ctx = .live := by
  induction hist with
  | nil =>
    intro c c1 es h hl
    simp only [run, Except.ok.injEq, Prod.mk.injEq] at h
    rw [h.1]
    exact hl
  | cons ev rest ih =>
    intro c c2 es' h hl
    obtain ⟨c1, e, es, h1, h2, _⟩ := run_cons_inv c c2 ev rest es' h
    exact step_live_back c c1 ev e h1 (ih c1 c2 es h2 hl)

theorem invoke_wf (c : ChanCaster K T) (op : Call K T) (h : WF c) :
    ∃ c1 e, invoke c op = .ok (c1, e) ∧ WF c1 := by
  cases op with
  | add key fn => exact ⟨(Add c key fn).1, (Add c key fn).2, rfl, Add_wf c key fn h⟩
  | get key =>
    refine ⟨(Get c key).1, (Get c key).2.2, rfl, ?_⟩
    rw [Get_broker]
    exact h
  | publish key data =>
    obtain ⟨c1, e, h1, h2, _⟩ := Publish_wf c key data h
    exact ⟨c1, e, h1, h2⟩
  | close key =>
    obtain ⟨c1, e, h1, h2, _⟩ := Close_wf c key h
    exact ⟨c1, e, h1, h2⟩

theorem step_wf (c : ChanCaster K T) (ev : Event K T) (h : WF c) :
    ∃ c1 e, step c ev = .ok (c1, e) ∧ WF c1 := by
  cases ev with
  | call op => exact invoke_wf c op h
  | env en => exact ⟨settle c en, none, rfl, settle_wf c en h⟩

/-- One entry changes the presence of `key` in the map as the event of the
entry and its returned error says. -/
theorem step_isSome (c c1 : ChanCaster K T) (ev : Event K T) (e : Option Error) (key : K)
    (h : step c ev = .ok (c1, e)) :
    (c1.chans key).isSome = (logEvent key (ev, e)).getD (c.chans key).isSome := by
  cases ev with
  | env en =>
    simp only [step, Except.ok.injEq, Prod.mk.injEq] at h
    rw [← h.1, (settle_frame c en).1]
    simp [logEvent]
  | call op =>
    simp only [step] at h
    cases op with
    | add k fn =>
      simp only [invoke, Except.ok.injEq] at h
      cases hc : c.ctx with
      | live =>
        rw [Add_of_live c k fn (by simp [hc, Context.Err])] at h
        cases h
        by_cases hk : k = key
        · subst hk
          simp [logEvent]
        · have hk' : key ≠ k := fun hh => hk hh.symm
          simp [logEvent, hk, Function.update_noteq hk']
      | canceled err cause =>
        rw [Add_of_done c k fn err cause hc] at h
        cases h
        simp [logEvent]
    | get k =>
      simp only [invoke, Except.ok.injEq] at h
      rw [Get_broker] at h
      cases h
      simp [logEvent]
    | publish k data =>
      have := (Publish_chans c c1 k data e h).1
      simp [logEvent, this]
    | close k =>
      have := (Close_chans c c1 k e h).1
      by_cases hk : k = key
      · subst hk
        simp [logEvent, this]
      · have hk' : key ≠ k := fun hh => hk hh.symm
        simp [logEvent, this, hk, Function.update_noteq hk']

/-- While the scope is live every `Add` succeeds, so the event of an entry does
not depend on the returned error. -/
theorem step_event_live (c c1 : ChanCaster K T) (ev : Event K T) (e : Option Error) (key : K)
    (hl : c.ctx = .live) (h : step c ev = .ok (c1, e)) :
    logEvent key (ev, e) = callEvent key ev := by
  cases ev with
  | env en => simp [logEvent, callEvent]
  | call op =>
    simp only [step] at h
    cases op with
    | add k fn =>
      simp only [invoke, Except.ok.injEq] at h
      rw [Add_of_live c k fn (by simp [hl, Context.Err])] at h
      cases h
      simp [logEvent, callEvent]
    | get k => simp [logEvent, callEvent]
    | publish k data => simp [logEvent, callEvent]
    | close k => simp [logEvent, callEvent]

/-- An entry that is not a call `Add(key, _)` does not create an entry for
`key` in the map. -/
theorem step_absent (c c1 : ChanCaster K T) (ev : Event K T) (e : Option Error) (key : K)
    (h : step c ev = .ok (c1, e)) (hk : c.chans key = none) (hn : addsKey key ev = false) :
    c1.chans key = none := by
  have := step_isSome c c1 ev e key h
  cases ev with
  | env en => simpa [logEvent, hk] using this
  | call op =>
    cases op with
    | add k fn =>
      have hne : ¬ k = key := by simpa [addsKey] using hn
      simpa [logEvent, hk, hne] using this
    | get k => simpa [logEvent, hk] using this
    | publish k data => simpa [logEvent, hk] using this
    | close k =>
      by_cases hkk : k = key
      · simpa [logEvent, hk, hkk] using this
      · simpa [logEvent, hk, hkk] using this

/-- From a well-formed broker every history runs to completion without a panic;
the final broker is well formed, and the presence of each key follows the
successful `Add` calls and the `Close` calls. -/
theorem run_wf (hist : List (Event K T)) :
    ∀ c : ChanCaster K T, WF c →
      ∃ c1 es, run c hist = .ok (c1, es) ∧ WF c1 ∧ es.length = hist.length ∧
        ∀ key, (c1.chans key).isSome = lastEvent (logEvent key) (c.chans key).isSome (hist.zip es) := by
  induction hist with
  | nil =>
    intro c h
    exact ⟨c, [], rfl, h, rfl, fun key => by simp [lastEvent]⟩
  | cons ev rest ih =>
    intro c h
    obtain ⟨c1, e, h1, hw1⟩ := step_wf c ev h
    obtain ⟨c2, es, h2, hw2, hlen, hkey⟩ := ih c1 hw1
    refine ⟨c2, e :: es, run_cons_ok c c1 c2 ev rest e es h1 h2, hw2, ?_, ?_⟩
    · simp [hlen]
    · intro key
      rw [List.zip_cons_cons, lastEvent, ← step_isSome c c1 ev e key h1]
      exact hkey key

/-- When the scope is still live at the end of a history, the presence of each
key follows the calls alone. -/
theorem run_live (hist : List (Event K T)) :
    ∀ (c c1 : ChanCaster K T) (es : List (Option Error)), c1.ctx = .live →
      run c hist = .ok (c1, es) →
        ∀ key, (c1.chans key).isSome = lastEvent (callEvent key) (c.chans key).isSome hist := by
  induction hist with
  | nil =>
    intro c c1 es _ h key
    simp only [run, Except.ok.injEq, Prod.mk.injEq] at h
    rw [← h.1]
    simp [lastEvent]
  | cons ev rest ih =>
    intro c c2 es' hl h key
    have hc : c.ctx = .live := run_live_back (ev :: rest) c c2 es' h hl
    obtain ⟨c1, e, es, h1, h2, _⟩ := run_cons_inv c c2 ev rest es' h
    rw [lastEvent, ← step_event_live c c1 ev e key hc h1, ← step_isSome c c1 ev e key h1]
    exact ih c1 c2 es hl h2 key

/-- A key absent from the map stays absent along a history without a call
`Add(key, _)`. -/
theorem run_absent (hist : List (Event K T)) :
    ∀ (c c1 : ChanCaster K T) (es : List (Option Error)) (key : K),
      run c hist = .ok (c1, es) → c.chans key = none →
        (∀ ev ∈ hist, addsKey key ev = false) → c1.chans key = none := by
  induction hist with
  | nil =>
    intro c c1 es key h hk _
    simp only [run, Except.ok.injEq, Prod.mk.injEq] at h
    rw [← h.1]
    exact hk
  | cons ev rest ih =>
    intro c c2 es' key h hk hn
    obtain ⟨c1, e, es, h1, h2, _⟩ := run_cons_inv c c2 ev rest es' h
    have hk1 := step_absent c c1 ev e key h1 hk (hn ev (List.mem_cons_self _ _))
    exact ih c1 c2 es key h2 hk1 (fun o ho => hn o (List.mem_cons_of_mem _ ho))

/-- Every reachable broker is well formed. -/
theorem Reachable.wf {c : ChanCaster K T} (h : Reachable c) : WF c := by
  obtain ⟨ctx, hist, es, hr⟩ := h
  obtain ⟨c1, es1, h1, hw, _⟩ := run_wf hist (New ctx : ChanCaster K T) (New_wf ctx)
  rw [hr] at h1
  cases h1
  exact hw

/-- Once the scope is done, a history of `Add` calls and outside happenings
leaves the broker as it is, and every `Add` in it returns the cause. -/
theorem run_adds_done (hist : List (Event K T)) (c : ChanCaster K T) (err cause : Error)
    (h : c.ctx = .canceled err cause) (hh : ∀ ev ∈ hist, isOtherCall ev = false) :
    ∃ es, run c hist = .ok (c, es) ∧ es.length = hist.length ∧
      ∀ p ∈ hist.zip es, isAdd p.1 = true → p.2 = some cause := by
  induction hist with
  | nil => exact ⟨[], rfl, rfl, by simp⟩
  | cons ev rest ih =>
    obtain ⟨es, h2, hlen, hes⟩ := ih (fun o ho => hh o (List.mem_cons_of_mem _ ho))
    have hev := hh ev (List.mem_cons_self _ _)
    cases ev with
    | env en =>
      have h1 : step c (Event.env en) = .ok (c, none) := by
        simp [step, settle_of_done c en err cause h]
      refine ⟨none :: es, run_cons_ok c c c _ rest none es h1 h2, by simp [hlen], ?_⟩
      intro p hp
      rw [List.zip_cons_cons, List.mem_cons] at hp
      rcases hp with rfl | hp
      · simp [isAdd]
      · exact hes p hp
    | call op =>
      cases op with
      | add k fn =>
        have h1 : step c (Event.call (Call.add k fn)) = .ok (c, some cause) := by
          simp [step, invoke, Add_of_done c k fn err cause h]
        refine ⟨some cause :: es, run_cons_ok c c c _ rest _ es h1 h2, by simp [hlen], ?_⟩
        intro p hp
        rw [List.zip_cons_cons, List.mem_cons] at hp
        rcases hp with rfl | hp
        · intro _
          rfl
        · exact hes p hp
      | get k => simp [isOtherCall] at hev
      | publish k data => simp [isOtherCall] at hev
      | close k => simp [isOtherCall] at hev

/-! ## Replaying a history -/

theorem RegisteredBy_cons {α : Type} (ev : α → Option Bool) (a : α) (rest : List α) :
    RegisteredBy ev (a :: rest)
      ↔ (ev a = some true ∧ ∀ y ∈ rest, ev y = none) ∨ RegisteredBy ev rest := by
  constructor
  · rintro ⟨pre, x, post, hl, hx, hp⟩
    cases pre with
    | nil =>
      simp only [List.nil_append, List.cons.injEq] at hl
      obtain ⟨rfl, rfl⟩ := hl
      exact Or.inl ⟨hx, hp⟩
    | cons p pre1 =>
      simp only [List.cons_append, List.cons.injEq] at hl
      exact Or.inr ⟨pre1, x, post, hl.2, hx, hp⟩
  · rintro (⟨hx, hp⟩ | ⟨pre, x, post, hl, hx, hp⟩)
    · exact ⟨[], a, rest, rfl, hx, hp⟩
    · exact ⟨a :: pre, x, post, by simp [hl], hx, hp⟩

/-- The replay answers true exactly when the history registers and does not
undo it, or when it is neutral throughout and started from true. -/
theorem lastEvent_iff {α : Type} (ev : α → Option Bool) (l : List α) :
    ∀ init : Bool, lastEvent ev init l = true
      ↔ (init = true ∧ ∀ x ∈ l, ev x = none) ∨ RegisteredBy ev l := by
  induction l with
  | nil =>
    intro init
    simp [lastEvent, RegisteredBy]
  | cons a rest ih =>
    intro init
    rw [lastEvent, ih, RegisteredBy_cons]
    cases h : ev a with
    | none => simp [h]
    | some b => cases b <;> simp [h]

theorem lastEvent_false_iff {α : Type} (ev : α → Option Bool) (l : List α) :
    lastEvent ev false l = true ↔ RegisteredBy ev l := by
  rw [lastEvent_iff]
  simp



/-! ## Results on the operations -/

theorem Get_of_absent (c : ChanCaster K T) (key : K) (h : c.chans key = none) :
    Get c key = (c, none, Cause c.ctx) := by
  cases hc : c.ctx <;> simp [Get, hc, Context.Err, Cause, h]

/-- The broker `oneKeyDone` is reached by one `Add` followed by a cancellation
of the scope. -/
theorem oneKeyDone_reachable : Reachable oneKeyDone :=
  ⟨.live, [.call (.add "AAPL" idleTask), .env (.scopeDone "context canceled" "task failed")],
    [none, none], rfl⟩

/-- C1: for a key with no entry in the map, `Publish` and `Close` both return
the error "no channel found for key" and return the broker exactly as it was
(no send, no close, same map); a key that no `Add` call of the history names has
no entry. -/
theorem publish_close_unknown_key (key : K) (data : T) :
    (∀ c : ChanCaster K T, c.chans key = none →
      Publish c key data = .ok (c, some "no channel found for key") ∧
      Close c key = .ok (c, some "no channel found for key") ∧
      ChanNotFound = "no channel found for key") ∧
    (∀ (ctx : Context) (hist : List (Event K T)) (c : ChanCaster K T)
        (es : List (Option Error)),
      run (New ctx) hist = .ok (c, es) → (∀ ev ∈ hist, addsKey key ev = false) →
        c.chans key = none) := by
  refine ⟨fun c h => ⟨Publish_of_absent c key data h, Close_of_absent c key h, rfl⟩, ?_⟩
  intro ctx hist c es hr hn
  exact run_absent hist (New ctx) c es key hr rfl hn

theorem publish_close_unknown_key_witness :
    (New .live : ChanCaster String Nat).chans "MSFT" = none ∧
    Publish (New .live : ChanCaster String Nat) "MSFT" 7
      = .ok (New .live, some "no channel found for key") ∧
    Close (New .live : ChanCaster String Nat) "MSFT"
      = .ok (New .live, some "no channel found for key") ∧
    ChanNotFound = "no channel found for key" :=
  ⟨rfl, (publish_close_unknown_key "MSFT" 7).1 (New .live) rfl⟩

/-- C2: with a live scope, `Get` on a key with no entry returns the nil channel
and a nil error, and returns the broker exactly as it was. -/
theorem get_unknown_key_live (c : ChanCaster K T) (key : K)
    (hl : c.ctx.Err = none) (h : c.chans key = none) :
    Get c key = (c, none, none) := by
  simp [Get, hl, h]

theorem get_unknown_key_live_witness :
    oneKey.ctx.Err = none ∧ oneKey.chans "GOOG" = none ∧
    Get oneKey "GOOG" = (oneKey, none, none) :=
  ⟨rfl, by decide, get_unknown_key_live oneKey "GOOG" rfl (by decide)⟩

/-- C3: the doc comment of `Get` promises the error "no channel found for key"
for a key that is not found; on a fresh broker with a live scope `Get("MSFT")`
returns the nil channel with a nil error instead. -/
theorem get_unknown_key_returns_nil_error :
    Get (New .live : ChanCaster String Nat) "MSFT" = (New .live, none, none) ∧
    (Get (New .live : ChanCaster String Nat) "MSFT").2.2 ≠ some ChanNotFound := by
  constructor
  · rfl
  · simp [Get, Context.Err, New]

/-- C4: when the scope is canceled, `Add` returns the cancellation cause, which
is not nil, and returns the broker exactly as it was (same map, no task
scheduled); any sequence of further `Add` calls returns that same cause every
time and leaves the broker as it was, also when tasks return or the scope is
canceled again in between. -/
theorem add_on_canceled_scope (c : ChanCaster K T) (err cause : Error)
    (h : c.ctx = .canceled err cause) :
    Cause c.ctx = some cause ∧
    (∀ (key : K) (fn : ChanFunc), Add c key fn = (c, Cause c.ctx)) ∧
    (∀ calls : List (K × ChanFunc),
      run c (calls.map fun p => Event.call (Call.add p.1 p.2))
        = .ok (c, List.replicate calls.length (some cause))) ∧
    (∀ hist : List (Event K T), (∀ ev ∈ hist, isOtherCall ev = false) →
      ∃ es, run c hist = .ok (c, es) ∧ es.length = hist.length ∧
        ∀ p ∈ hist.zip es, isAdd p.1 = true → p.2 = some cause) := by
  have hc : Cause c.ctx = some cause := by simp [h, Cause]
  refine ⟨hc, fun key fn => ?_, fun calls => ?_, fun hist hh => ?_⟩
  · rw [hc]
    exact Add_of_done c key fn err cause h
  · induction calls with
    | nil => rfl
    | cons p rest ih =>
      have h1 : step c (Event.call (Call.add p.1 p.2)) = .ok (c, some cause) := by
        simp [step, invoke, Add_of_done c p.1 p.2 err cause h]
      simpa [List.replicate_succ] using
        run_cons_ok c c c (Event.call (Call.add p.1 p.2)) _ (some cause) _ h1 ih
  · exact run_adds_done hist c err cause h hh

theorem add_on_canceled_scope_witness :
    oneKeyDone.ctx = .canceled "context canceled" "task failed" ∧
    Cause oneKeyDone.ctx = some "task failed" ∧
    (∀ (key : String) (fn : ChanFunc), Add oneKeyDone key fn = (oneKeyDone, Cause oneKeyDone.ctx)) ∧
    (∀ calls : List (String × ChanFunc),
      run oneKeyDone (calls.map fun p => Event.call (Call.add p.1 p.2))
        = .ok (oneKeyDone, List.replicate calls.length (some "task failed"))) ∧
    (∀ hist : List (Event String Nat), (∀ ev ∈ hist, isOtherCall ev = false) →
      ∃ es, run oneKeyDone hist = .ok (oneKeyDone, es) ∧ es.length = hist.length ∧
        ∀ p ∈ hist.zip es, isAdd p.1 = true → p.2 = some "task failed") :=
  ⟨rfl, add_on_canceled_scope oneKeyDone "context canceled" "task failed" rfl⟩

/-- C5: when the scope is canceled, `Get` returns the nil channel and the
cancellation cause, which is not nil and is the error `Add` returns, for every
key, registered or not; the broker is returned as it was. -/
theorem get_on_canceled_scope (c : ChanCaster K T) (err cause : Error)
    (h : c.ctx = .canceled err cause) (key : K) :
    Get c key = (c, none, some cause) ∧ Cause c.ctx = some cause ∧
    ∀ fn : ChanFunc, (Add c key fn).2 = some cause := by
  refine ⟨by simp [Get, h, Context.Err, Cause], by simp [h, Cause], fun fn => ?_⟩
  rw [Add_of_done c key fn err cause h]

theorem get_on_canceled_scope_witness :
    oneKeyDone.ctx = .canceled "context canceled" "task failed" ∧
    oneKeyDone.chans "AAPL" = some 0 ∧
    Get oneKeyDone "AAPL" = (oneKeyDone, none, some "task failed") ∧
    Cause oneKeyDone.ctx = some "task failed" ∧
    ∀ fn : ChanFunc, (Add oneKeyDone "AAPL" fn).2 = some "task failed" :=
  ⟨rfl, by decide, get_on_canceled_scope oneKeyDone "context canceled" "task failed" rfl "AAPL"⟩

/-- On a key whose channel is open `Close` returns nil, closes the channel and
removes the entry, keeps the other entries, and a later `Get` returns the nil
channel with the cause of the scope (nil while the scope is live). -/
theorem Close_then_Get (d : ChanCaster K T) (key : K) (ch : ChanId) (envs : List Env)
    (hk : d.chans key = some ch) (ho : (d.heap ch).closed = false) :
    ∃ c2 : ChanCaster K T, Close d key = .ok (c2, none) ∧ (c2.heap ch).closed = true ∧
      c2.chans key = none ∧ (∀ k, k ≠ key → c2.chans k = d.chans k) ∧
      Get (settleAll c2 envs) key = (settleAll c2 envs, none, Cause (settleAll c2 envs).ctx) := by
  refine ⟨_, Close_of_open d key ch hk ho, by simp, by simp, ?_, ?_⟩
  · intro k hne
    simp [Function.update_noteq hne]
  · apply Get_of_absent
    rw [(settleAll_frame envs _).1]
    simp

/-- C6 fails as stated: on a fresh broker with a live scope, `Add("AAPL", fn)`
and `Close("AAPL")` both return nil; `fn` then returns the error "boom", and the
following `Get("AAPL")` returns the nil channel with the error "boom", not with
a nil error. -/
theorem add_close_get_counterexample :
    (New .live : ChanCaster String Nat).ctx.Err = none ∧
    ∃ c1 c2 : ChanCaster String Nat,
      Add (New .live) "AAPL" failingTask = (c1, none) ∧
      Close c1 "AAPL" = .ok (c2, none) ∧
      Get (settle c2 (.taskDone 0)) "AAPL" = (settle c2 (.taskDone 0), none, some "boom") ∧
      (Get (settle c2 (.taskDone 0)) "AAPL").2.2 ≠ none :=
  ⟨rfl, _, _, Add_of_live (New .live) "AAPL" failingTask rfl,
    Close_of_open _ "AAPL" 0 (by decide) (by decide), rfl, by decide⟩

/-- C6, amended: with a live scope, `Add(key, fn)` returns nil and registers a
channel; whatever tasks return in between, the following `Close(key)` returns
nil, closes that channel and removes the entry of `key`, and the entry of every
other key is what it was before the `Close`; a later `Get(key)` returns the nil
channel, with a nil error when the scope is still live and with the
cancellation cause when the scope has been canceled meanwhile. -/
theorem add_close_then_get (c : ChanCaster K T) (key : K) (fn : ChanFunc)
    (envs1 envs2 : List Env) (hl : c.ctx.Err = none) :
    ∃ (c1 : ChanCaster K T) (ch : ChanId) (c2 : ChanCaster K T),
      Add c key fn = (c1, none) ∧ c1.chans key = some ch ∧
      Close (settleAll c1 envs1) key = .ok (c2, none) ∧ (c2.heap ch).closed = true ∧
      c2.chans key = none ∧
      (∀ k, k ≠ key → c2.chans k = (settleAll c1 envs1).chans k) ∧
      Get (settleAll c2 envs2) key
        = (settleAll c2 envs2, none, Cause (settleAll c2 envs2).ctx) ∧
      ((settleAll c2 envs2).ctx = .live →
        Get (settleAll c2 envs2) key = (settleAll c2 envs2, none, none)) ∧
      (∀ err cause, (settleAll c2 envs2).ctx = .canceled err cause →
        Get (settleAll c2 envs2) key = (settleAll c2 envs2, none, some cause)) := by
  have hA := Add_of_live c key fn hl
  have h1 : (Add c key fn).2 = none := by rw [hA]
  have hk1 : (Add c key fn).1.chans key = some c.next := by
    rw [hA]
    simp
  have ho1 : ((Add c key fn).1.heap c.next).closed = false := by
    rw [hA]
    simp
  obtain ⟨hch, hhp⟩ := settleAll_frame envs1 (Add c key fn).1
  obtain ⟨c2, hC, hcl, hrm, hfr, hG⟩ :=
    Close_then_Get (settleAll (Add c key fn).1 envs1) key c.next envs2
      (by rw [hch]; exact hk1) (by rw [hhp]; exact ho1)
  refine ⟨(Add c key fn).1, c.next, c2, Prod.ext rfl h1, hk1, hC, hcl, hrm, hfr, hG, ?_, ?_⟩
  · intro hlive
    rw [hG, hlive]
    rfl
  · intro err cause hdone
    rw [hG, hdone]
    rfl

theorem add_close_then_get_witness :
    (New .live : ChanCaster String Nat).ctx.Err = none ∧
    ∃ (c1 : ChanCaster String Nat) (ch : ChanId) (c2 : ChanCaster String Nat),
      Add (New .live) "AAPL" failingTask = (c1, none) ∧ c1.chans "AAPL" = some ch ∧
      Close c1 "AAPL" = .ok (c2, none) ∧ (c2.heap ch).closed = true ∧
      c2.chans "AAPL" = none ∧
      (settle c2 (.taskDone 0)).ctx = .canceled "context canceled" "boom" ∧
      Get (settle c2 (.taskDone 0)) "AAPL" = (settle c2 (.taskDone 0), none, some "boom") ∧
      Get c2 "AAPL" = (c2, none, none) := by
  obtain ⟨c1, ch, c2, hA, hk, hC, hcl, hrm, _, _, _, hdone⟩ :=
    add_close_then_get (New .live : ChanCaster String Nat) "AAPL" failingTask [] [.taskDone 0] rfl
  obtain ⟨c1', ch', c2', hA', _, hC', _, _, _, _, hlive, _⟩ :=
    add_close_then_get (New .live : ChanCaster String Nat) "AAPL" failingTask [] [] rfl
  have e1 : c1 = (Add (New .live) "AAPL" failingTask).1 := by rw [hA]
  have e1' : c1' = (Add (New .live) "AAPL" failingTask).1 := by rw [hA']
  subst e1
  subst e1'
  have hX := Close_of_open (Add (New .live : ChanCaster String Nat) "AAPL" failingTask).1
    "AAPL" 0 (by decide) (by decide)
  have e2 := (Prod.mk.inj (Except.ok.inj (hX.symm.trans hC))).1
  have e2' := (Prod.mk.inj (Except.ok.inj (hX.symm.trans hC'))).1
  subst e2
  have e3 : c2' = _ := e2'.symm
  subst e3
  exact ⟨rfl, _, ch, _, hA, hk, hC, hcl, hrm, rfl, hdone _ _ rfl, hlive rfl⟩

/-! ## Results on histories -/

/-- C7 fails as stated: on a broker built on a canceled parent context the call
`Add("AAPL", _)` is made and no `Close("AAPL")` follows, yet the map has no
entry for "AAPL". -/
theorem entry_iff_called_counterexample :
    run (New (.canceled "context canceled" "shutdown") : ChanCaster String Nat)
        [.call (.add "AAPL" idleTask)]
      = .ok (New (.canceled "context canceled" "shutdown"), [some "shutdown"]) ∧
    RegisteredBy (callEvent "AAPL") [(Event.call (.add "AAPL" idleTask) : Event String Nat)] ∧
    ¬ ((∃ ch, (New (.canceled "context canceled" "shutdown") : ChanCaster String Nat).chans "AAPL"
            = some ch)
        ↔ RegisteredBy (callEvent "AAPL")
            [(Event.call (.add "AAPL" idleTask) : Event String Nat)]) := by
  have hreg : RegisteredBy (callEvent "AAPL")
      [(Event.call (.add "AAPL" idleTask) : Event String Nat)] :=
    ⟨[], Event.call (.add "AAPL" idleTask), [], rfl, by simp [callEvent], by simp⟩
  refine ⟨rfl, hreg, ?_⟩
  intro h
  obtain ⟨ch, hch⟩ := h.2 hreg
  simp [New] at hch

/-- C7, amended: every history from `New` (calls of the methods, with task
returns and cancellations of the scope anywhere in between) runs to completion,
and in the final state the map has an entry for `key` exactly when some
`Add(key, _)` of the history returned nil and no `Close(key)` was called after
the most recent such `Add`; when the scope is still live at the end, every
`Add` returned nil and this is the claim on the calls alone. -/
theorem entry_iff_added_not_closed (ctx : Context) (hist : List (Event K T)) (key : K) :
    ∃ (c : ChanCaster K T) (es : List (Option Error)),
      run (New ctx) hist = .ok (c, es) ∧ es.length = hist.length ∧
      ((∃ ch, c.chans key = some ch) ↔ RegisteredBy (logEvent key) (hist.zip es)) ∧
      (c.ctx = .live → ((∃ ch, c.chans key = some ch) ↔ RegisteredBy (callEvent key) hist)) := by
  obtain ⟨c, es, hr, _, hlen, hkey⟩ := run_wf hist (New ctx : ChanCaster K T) (New_wf ctx)
  refine ⟨c, es, hr, hlen, ?_, ?_⟩
  · rw [← Option.isSome_iff_exists, hkey key, ← lastEvent_false_iff]
    rfl
  · intro hl
    rw [← Option.isSome_iff_exists, run_live hist (New ctx) c es hl hr key, ← lastEvent_false_iff]
    rfl

theorem entry_iff_added_not_closed_witness :
    run (New .live) mixedHistory
      = .ok (taskFailed,
          [none, none, some "boom", some "boom", some "no channel found for key"]) ∧
    taskFailed.ctx = .canceled "context canceled" "boom" ∧
    taskFailed.chans "AAPL" = some 0 ∧ taskFailed.chans "MSFT" = none ∧
    RegisteredBy (logEvent "AAPL")
      (mixedHistory.zip
        [none, none, some "boom", some "boom", some "no channel found for key"]) ∧
    ¬ RegisteredBy (logEvent "MSFT")
      (mixedHistory.zip
        [none, none, some "boom", some "boom", some "no channel found for key"]) ∧
    ∃ (c : ChanCaster String Nat) (es : List (Option Error)),
      run (New .live) calmHistory = .ok (c, es) ∧ c.ctx = .live ∧
      c.chans "MSFT" = some 1 ∧ RegisteredBy (callEvent "MSFT") calmHistory ∧
      c.chans "AAPL" = none ∧ ¬ RegisteredBy (callEvent "AAPL") calmHistory := by
  have hrun : run (New .live) mixedHistory
      = .ok (taskFailed,
          [none, none, some "boom", some "boom", some "no channel found for key"]) := rfl
  obtain ⟨c, es, hr, _, hA, _⟩ := entry_iff_added_not_closed .live mixedHistory "AAPL"
  obtain ⟨c', es', hr', _, hM, _⟩ := entry_iff_added_not_closed .live mixedHistory "MSFT"
  rw [hrun] at hr hr'
  cases hr
  cases hr'
  have hnone : taskFailed.chans "MSFT" = none := by decide
  refine ⟨hrun, rfl, by decide, hnone, hA.1 ⟨0, by decide⟩, fun h => ?_, ?_⟩
  · obtain ⟨ch, hch⟩ := hM.2 h
    rw [hnone] at hch
    cases hch
  · obtain ⟨d, ds, hd, _, _, hM2⟩ := entry_iff_added_not_closed .live calmHistory "MSFT"
    obtain ⟨d', ds', hd', _, _, hA2⟩ := entry_iff_added_not_closed .live calmHistory "AAPL"
    rw [hd] at hd'
    cases hd'
    have hctx : (run (New .live) calmHistory).map (fun p => p.1.ctx) = .ok Context.live := rfl
    have hmsft : (run (New .live) calmHistory).map (fun p => p.1.chans "MSFT")
        = .ok (some 1) := rfl
    have haapl : (run (New .live) calmHistory).map (fun p => p.1.chans "AAPL")
        = .ok none := rfl
    rw [hd] at hctx hmsft haapl
    have hl : d.ctx = .live := Except.ok.inj hctx
    have h1 : d.chans "MSFT" = some 1 := Except.ok.inj hmsft
    have h0 : d.chans "AAPL" = none := Except.ok.inj haapl
    refine ⟨d, ds, hd, hl, h1, (hM2 hl).1 ⟨1, h1⟩, h0, fun h => ?_⟩
    obtain ⟨ch, hch⟩ := (hA2 hl).2 h
    rw [h0] at hch
    cases hch

/-- C9: every history from `New` (calls of the methods, with task returns and
cancellations of the scope anywhere in between) runs to completion without a
panic, and in the final state every channel stored in the map is open; hence
`Close` never panics there, a `Close` of a registered key returns nil, closes
its open channel and removes the entry, and after a `Close(key)` that returned
nil, a further `Close(key)` with no `Add(key, _)` in between returns the error
"no channel found for key". -/
theorem stored_channels_open (ctx : Context) (hist : List (Event K T)) :
    ∃ (c : ChanCaster K T) (es : List (Option Error)),
      run (New ctx) hist = .ok (c, es) ∧
      (∀ key ch, c.chans key = some ch → (c.heap ch).closed = false) ∧
      (∀ key, ∃ c1 e, Close c key = .ok (c1, e)) ∧
      (∀ key ch, c.chans key = some ch →
        ∃ c1, Close c key = .ok (c1, none) ∧ (c1.heap ch).closed = true ∧ c1.chans key = none) ∧
      (∀ key c1, Close c key = .ok (c1, none) →
        ∀ hist2 : List (Event K T), (∀ ev ∈ hist2, addsKey key ev = false) →
          ∃ c2 es2, run c1 hist2 = .ok (c2, es2) ∧
            Close c2 key = .ok (c2, some "no channel found for key")) := by
  obtain ⟨c, es, hr, hw, _⟩ := run_wf hist (New ctx : ChanCaster K T) (New_wf ctx)
  refine ⟨c, es, hr, hw.isOpen, ?_, ?_, ?_⟩
  · intro key
    obtain ⟨c1, e, h1, _⟩ := Close_wf c key hw
    exact ⟨c1, e, h1⟩
  · intro key ch hk
    exact ⟨_, Close_of_open c key ch hk (hw.isOpen key ch hk), by simp, by simp⟩
  · intro key c1 hc hist2 hn
    obtain ⟨c1', e, h1, hw1, _, hch⟩ := Close_wf c key hw
    rw [hc] at h1
    cases h1
    have hk1 : c1.chans key = none := by simp [hch]
    obtain ⟨c2, es2, h2, _⟩ := run_wf hist2 c1 hw1
    exact ⟨c2, es2, h2, Close_of_absent c2 key (run_absent hist2 c1 c2 es2 key h2 hk1 hn)⟩

theorem stored_channels_open_witness :
    run (New .live) twoKeysHistory = .ok (twoKeysDone, [none, none, none]) ∧
    twoKeysDone.ctx = .canceled "context canceled" "boom" ∧
    twoKeysDone.chans "MSFT" = some 1 ∧ (twoKeysDone.heap 1).closed = false ∧
    ∃ c1 : ChanCaster String Nat,
      Close twoKeysDone "MSFT" = .ok (c1, none) ∧ (c1.heap 1).closed = true ∧
      c1.chans "MSFT" = none ∧
      ∃ c2 es2,
        run c1 [.call (.get "MSFT"), .env (.taskDone 1), .call (.add "GOOG" idleTask)]
          = .ok (c2, es2) ∧
        Close c2 "MSFT" = .ok (c2, some "no channel found for key") := by
  have hrun : run (New .live) twoKeysHistory = .ok (twoKeysDone, [none, none, none]) := rfl
  obtain ⟨c, es, hr, hopen, _, hclose, hagain⟩ := stored_channels_open .live twoKeysHistory
  rw [hrun] at hr
  cases hr
  obtain ⟨c1, hc1, hcl, hrm⟩ := hclose "MSFT" 1 (by decide)
  obtain ⟨c2, es2, h2, h3⟩ := hagain "MSFT" c1 hc1
    [.call (.get "MSFT"), .env (.taskDone 1), .call (.add "GOOG" idleTask)] (by decide)
  exact ⟨hrun, rfl, by decide, hopen "MSFT" 1 (by decide), c1, hc1, hcl, hrm, c2, es2, h2, h3⟩

/-- C10: on a reachable broker with a live scope, `Add` on a key that already
has channel `ch` returns nil and stores a channel that is new (different from
`ch`, stored under no key before), open and empty; `ch` itself is untouched and
still open, is no longer stored under any key, every other key keeps its entry,
and the task is scheduled. -/
theorem add_existing_key (c : ChanCaster K T) (key : K) (fn : ChanFunc) (ch : ChanId)
    (hr : Reachable c) (hl : c.ctx.Err = none) (hk : c.chans key = some ch) :
    ∃ (c1 : ChanCaster K T) (ch1 : ChanId),
      Add c key fn = (c1, none) ∧ c1.chans key = some ch1 ∧ ch1 ≠ ch ∧
      (∀ k, c.chans k ≠ some ch1) ∧ c1.heap ch1 = ⟨false, []⟩ ∧
      c1.heap ch = c.heap ch ∧ (c1.heap ch).closed = false ∧
      (∀ k, c1.chans k ≠ some ch) ∧ (∀ k, k ≠ key → c1.chans k = c.chans k) ∧
      c1.eg = c.eg ++ [fn] := by
  have hw := hr.wf
  have hlt : ch < c.next := hw.alloc key ch hk
  have hne : ch ≠ c.next := Nat.ne_of_lt hlt
  refine ⟨_, c.next, Add_of_live c key fn hl, by simp, fun h => hne h.symm, ?_, by simp, ?_, ?_,
    ?_, ?_, rfl⟩
  · intro k h
    exact Nat.lt_irrefl _ (hw.alloc k _ h)
  · simp [Function.update_noteq hne]
  · simpa [Function.update_noteq hne] using hw.isOpen key ch hk
  · intro k
    by_cases e : k = key
    · subst e
      simpa using hne.symm
    · intro h
      simp [Function.update_noteq e] at h
      exact e (hw.inj k key ch h hk)
  · intro k e
    simp [Function.update_noteq e]

theorem add_existing_key_witness :
    Reachable oneKey ∧ oneKey.ctx.Err = none ∧ oneKey.chans "AAPL" = some 0 ∧
    ∃ (c1 : ChanCaster String Nat) (ch1 : ChanId),
      Add oneKey "AAPL" idleTask = (c1, none) ∧ c1.chans "AAPL" = some ch1 ∧ ch1 ≠ 0 ∧
      (∀ k, oneKey.chans k ≠ some ch1) ∧ c1.heap ch1 = ⟨false, []⟩ ∧
      c1.heap 0 = oneKey.heap 0 ∧ (c1.heap 0).closed = false ∧
      (∀ k, c1.chans k ≠ some 0) ∧ (∀ k, k ≠ "AAPL" → c1.chans k = oneKey.chans k) ∧
      c1.eg = oneKey.eg ++ [idleTask] :=
  ⟨⟨.live, [.call (.add "AAPL" idleTask)], [none], rfl⟩, rfl, by decide,
    add_existing_key oneKey "AAPL" idleTask 0
      ⟨.live, [.call (.add "AAPL" idleTask)], [none], rfl⟩ rfl (by decide)⟩

end Chancaster
